import Mathlib

/-!
Verification of the ppcar-be persistence core: the `Filters` criteria
compiler, the `Repository` contract with its Django-backed and in-memory
implementations, the `DomainEventBroker` implementations, and the
transactional domain-event dispatch discipline.

Strings from the Python source are embedded as `List Char`; Python's
fallible attribute accesses are embedded as `Except PyErr`; the `returns`
library's `Result` is embedded as `RepoResult`.
-/

namespace PpcarBe

/-! ### Character-list string utilities (Python `str` operations) -/

/-- `hasInit pat s` holds when `pat` is an initial segment of `s`
(Python `s.startswith(pat)` seen from the pattern side). -/
def hasInit : List Char → List Char → Bool
  | [], _ => true
  | _ :: _, [] => false
  | p :: ps, s :: ss => p == s && hasInit ps ss

/-- `occursIn pat s`: `pat` occurs as a contiguous substring of `s`
(Python `pat in s`). -/
def occursIn (pat : List Char) : List Char → Bool
  | [] => pat.isEmpty
  | c :: rest => hasInit pat (c :: rest) || occursIn pat rest

/-- `endsWithL s pat`: Python `s.endswith(pat)`. -/
def endsWithL (s pat : List Char) : Bool :=
  decide (pat.length ≤ s.length) && (s.drop (s.length - pat.length) == pat)

/-- Fuel-indexed worker for `replaceAll`; the fuel is always at least the
length of the remaining string, so the `0` branch is never taken in use. -/
def replaceAllGo (pat : List Char) : Nat → List Char → List Char
  | _, [] => []
  | 0, s => s
  | fuel + 1, c :: rest =>
    if !pat.isEmpty && hasInit pat (c :: rest) then
      replaceAllGo pat fuel ((c :: rest).drop pat.length)
    else c :: replaceAllGo pat fuel rest

/-- Python `s.replace(pat, '')`: removes every (leftmost-first,
non-overlapping) occurrence of `pat` from `s`. -/
def replaceAll (pat s : List Char) : List Char :=
  replaceAllGo pat s.length s

/-! ### The `Filters` compiler's suffix-derived predicate builders
(`src/blacar/startup/shared/filters.py`, `numeric_filter` /
`datetime_filter`) -/

/-- The recognized suffixes, in the dict order the source checks them. -/
def sufMin : List Char := "_min".toList
def sufMax : List Char := "_max".toList
def sufEmin : List Char := "_emin".toList
def sufEmax : List Char := "_emax".toList
def sufAfter : List Char := "_after".toList
def sufBefore : List Char := "_before".toList
def sufIafter : List Char := "_iafter".toList
def sufIbefore : List Char := "_ibefore".toList

/-- A django-filters lookup expression, as selected by the compiler. -/
inductive Lookup where
  | exact | gte | lte | gt | lt
deriving DecidableEq, Repr

/-- The data of a compiled `filters.Filter`: target field and lookup. -/
structure CompiledFilter where
  field_name : List Char
  lookup_expr : Lookup
deriving DecidableEq, Repr

/-- `Filters.numeric_filter`: checks the suffixes `_min`, `_max`, `_emin`,
`_emax` in dict order; on a match it does
`field_name.replace(suffix, '')` and uses the mapped lookup, otherwise it
builds an exact filter on the field itself. -/
def numeric_filter (field_name : List Char) : CompiledFilter :=
  if endsWithL field_name sufMin then ⟨replaceAll sufMin field_name, .gte⟩
  else if endsWithL field_name sufMax then ⟨replaceAll sufMax field_name, .lte⟩
  else if endsWithL field_name sufEmin then ⟨replaceAll sufEmin field_name, .gt⟩
  else if endsWithL field_name sufEmax then ⟨replaceAll sufEmax field_name, .lt⟩
  else ⟨field_name, .exact⟩

/-- `Filters.datetime_filter` (and the identical `date_filter`): suffixes
`_after`, `_before`, `_iafter`, `_ibefore` in dict order. -/
def datetime_filter (field_name : List Char) : CompiledFilter :=
  if endsWithL field_name sufAfter then ⟨replaceAll sufAfter field_name, .gt⟩
  else if endsWithL field_name sufBefore then ⟨replaceAll sufBefore field_name, .lt⟩
  else if endsWithL field_name sufIafter then ⟨replaceAll sufIafter field_name, .gte⟩
  else if endsWithL field_name sufIbefore then ⟨replaceAll sufIbefore field_name, .lte⟩
  else ⟨field_name, .exact⟩

/-! #### String lemmas used to settle the suffix dispatch -/

theorem hasInit_take_eq : ∀ {p s : List Char}, hasInit p s = true → s.take p.length = p
  | [], _, _ => rfl
  | _ :: _, [], h => by simp [hasInit] at h
  | p :: ps, s :: ss, h => by
    simp only [hasInit, Bool.and_eq_true, beq_iff_eq] at h
    simp [List.take, hasInit_take_eq h.2, h.1]

theorem hasInit_take_self : ∀ (s : List Char) (n : Nat), hasInit (s.take n) s = true
  | [], _ => by simp [hasInit]
  | _ :: _, 0 => by simp [hasInit]
  | c :: ss, n + 1 => by simp [List.take, hasInit, hasInit_take_self ss n]

theorem hasInit_append_left : ∀ {p x : List Char} (y : List Char),
    hasInit p (x ++ y) = true → p.length ≤ x.length → hasInit p x = true
  | [], _, _, _, _ => rfl
  | _ :: _, [], _, _, hl => by simp at hl
  | p :: ps, x :: xs, y, h, hl => by
    simp only [List.cons_append, hasInit, Bool.and_eq_true, beq_iff_eq] at h ⊢
    exact ⟨h.1, hasInit_append_left y h.2 (by simpa using hl)⟩

/-- Equal-or-shorter suffixes of one string nest: if `s` ends with both `p`
and `q` and `p` is no longer than `q`, then `q` itself ends with `p`. -/
theorem endsWith_nested {s p q : List Char} (hp : endsWithL s p = true)
    (hq : endsWithL s q = true) (hl : p.length ≤ q.length) : endsWithL q p = true := by
  simp only [endsWithL, Bool.and_eq_true, decide_eq_true_eq, beq_iff_eq] at hp hq ⊢
  obtain ⟨hps, hpd⟩ := hp
  obtain ⟨hqs, hqd⟩ := hq
  refine ⟨hl, ?_⟩
  have : q.drop (q.length - p.length) = (s.drop (s.length - q.length)).drop (q.length - p.length) := by
    rw [hqd]
  rw [this, List.drop_drop]
  have harith : s.length - q.length + (q.length - p.length) = s.length - p.length := by omega
  rw [harith, hpd]

theorem endsWithL_append (b p : List Char) : endsWithL (b ++ p) p = true := by
  simp only [endsWithL, Bool.and_eq_true, decide_eq_true_eq, beq_iff_eq]
  constructor
  · simp
  · have : (b ++ p).length - p.length = b.length := by simp [List.length_append]
    rw [this, List.drop_left]

/-- A pattern is border-free when no proper nonempty tail of it is also an
initial segment of it; all the recognized filter suffixes are border-free. -/
def borderFreeB (pat : List Char) : Bool :=
  (List.range pat.length).all (fun k => k == 0 || !(hasInit (pat.drop k) pat))

theorem borderFreeB_spec {pat : List Char} (h : borderFreeB pat = true) {k : Nat}
    (hk0 : 0 < k) (hkl : k < pat.length) : hasInit (pat.drop k) pat = false := by
  simp only [borderFreeB, List.all_eq_true, List.mem_range] at h
  have := h k hkl
  rcases Bool.or_eq_true_iff.mp this with h1 | h1
  · have : k = 0 := by simpa using h1
    omega
  · simpa using h1

theorem hasInit_straddle_false {pat : List Char} (hne : pat ≠ [])
    (hbf : borderFreeB pat = true) {b : List Char} (hb : b ≠ [])
    (hocc : occursIn pat b = false) : hasInit pat (b ++ pat) = false := by
  by_contra hcon
  have h : hasInit pat (b ++ pat) = true := by
    cases hh : hasInit pat (b ++ pat)
    · exact absurd hh hcon
    · rfl
  rcases le_or_lt pat.length b.length with hl | hl
  · -- the pattern fits inside `b`: it occurs in `b`, contradiction
    have hib : hasInit pat b = true := hasInit_append_left pat h hl
    obtain ⟨c, rest, rfl⟩ := List.exists_cons_of_ne_nil hb
    simp [occursIn, hib] at hocc
  · -- the pattern straddles the boundary: `pat` has a border at `b.length`
    have htake : (b ++ pat).take pat.length = pat := hasInit_take_eq h
    have hbtake : b.take pat.length = b := List.take_of_length_le (Nat.le_of_lt hl)
    rw [List.take_append_eq_append_take, hbtake] at htake
    -- pat = b ++ pat.take (pat.length - b.length)
    have hdrop : pat.drop b.length = pat.take (pat.length - b.length) := by
      conv_lhs => rw [← htake]
      rw [List.drop_left]
    have hinit : hasInit (pat.drop b.length) pat = true := by
      rw [hdrop]; exact hasInit_take_self pat _
    have hb0 : 0 < b.length := List.length_pos.mpr hb
    have := borderFreeB_spec hbf hb0 hl
    rw [hinit] at this
    exact Bool.true_eq_false.mp this

theorem replaceAllGo_fuel {pat : List Char} :
    ∀ (fuel₁ fuel₂ : Nat) (s : List Char), s.length ≤ fuel₁ → s.length ≤ fuel₂ →
      replaceAllGo pat fuel₁ s = replaceAllGo pat fuel₂ s
  | _, _, [], _, _ => by cases fuel₁' : (0:Nat) <;> simp [replaceAllGo]
  | 0, _, _ :: _, h1, _ => by simp at h1
  | _, 0, _ :: _, _, h2 => by simp at h2
  | f + 1, g + 1, c :: rest, h1, h2 => by
    simp only [replaceAllGo]
    split
    · next hcond =>
      have hplen : 0 < pat.length := by
        rcases Bool.and_eq_true_iff.mp hcond with ⟨hne, _⟩
        cases pat
        · simp [List.isEmpty] at hne
        · simp
      apply replaceAllGo_fuel
      · simp only [List.length_drop, List.length_cons]
        simp only [List.length_cons] at h1
        omega
      · simp only [List.length_drop, List.length_cons]
        simp only [List.length_cons] at h2
        omega
    · simp only [List.length_cons] at h1 h2
      rw [replaceAllGo_fuel f g rest (by omega) (by omega)]

theorem replaceAll_nil (pat : List Char) : replaceAll pat [] = [] := rfl

theorem replaceAll_cons (pat : List Char) (c : Char) (rest : List Char) :
    replaceAll pat (c :: rest) =
      if !pat.isEmpty && hasInit pat (c :: rest) then
        replaceAll pat ((c :: rest).drop pat.length)
      else c :: replaceAll pat rest := by
  show replaceAllGo pat (rest.length + 1) (c :: rest) = _
  simp only [replaceAllGo]
  split
  · next hcond =>
    have hplen : 0 < pat.length := by
      rcases Bool.and_eq_true_iff.mp hcond with ⟨hne, _⟩
      cases pat
      · simp [List.isEmpty] at hne
      · simp
    apply replaceAllGo_fuel
    · simp only [List.length_drop, List.length_cons]; omega
    · simp [List.length_drop]
  · rfl

/-- Removing a border-free pattern from `b ++ pat` yields `b` when the
pattern does not also occur inside `b`. -/
theorem replaceAll_append_of {pat : List Char} (hne : pat ≠ [])
    (hbf : borderFreeB pat = true) :
    ∀ (b : List Char), occursIn pat b = false → replaceAll pat (b ++ pat) = b
  | [], _ => by
    have h0 : hasInit pat pat = true := by
      have := hasInit_take_self pat pat.length
      rwa [List.take_of_length_le (Nat.le_refl _)] at this
    obtain ⟨c, rest, rfl⟩ := List.exists_cons_of_ne_nil hne
    rw [List.nil_append, replaceAll_cons, h0]
    simp [replaceAll_nil]
  | c :: bs, hocc => by
    have hstraddle : hasInit pat ((c :: bs) ++ pat) = false :=
      hasInit_straddle_false hne hbf (by simp) hocc
    rw [List.cons_append, replaceAll_cons]
    have : hasInit pat (c :: (bs ++ pat)) = false := by
      simpa using hstraddle
    rw [this]
    simp only [Bool.and_false, Bool.false_eq_true, if_false]
    have hoccbs : occursIn pat bs = false := by
      simp only [occursIn, Bool.or_eq_false_iff] at hocc
      exact hocc.2
    rw [replaceAll_append_of hne hbf bs hoccbs]

/-- If `s` ends with `q`, and `p` (no longer than `q`) is not a suffix of
`q`, then `s` does not end with `p`: rules out the earlier-checked suffixes. -/
theorem endsWith_excl {s p q : List Char} (hq : endsWithL s q = true)
    (hlen : p.length ≤ q.length) (hne : endsWithL q p = false) : endsWithL s p = false := by
  cases hh : endsWithL s p with
  | false => rfl
  | true =>
    have := endsWith_nested hh hq hlen
    rw [this] at hne
    cases hne

theorem numeric_filter_min {name : List Char} (h : endsWithL name sufMin = true) :
    numeric_filter name = ⟨replaceAll sufMin name, .gte⟩ := by
  simp [numeric_filter, h]

theorem numeric_filter_max {name : List Char} (h : endsWithL name sufMax = true) :
    numeric_filter name = ⟨replaceAll sufMax name, .lte⟩ := by
  simp [numeric_filter, h, endsWith_excl (p := sufMin) h (by decide) (by decide)]

theorem numeric_filter_emin {name : List Char} (h : endsWithL name sufEmin = true) :
    numeric_filter name = ⟨replaceAll sufEmin name, .gt⟩ := by
  simp [numeric_filter, h, endsWith_excl (p := sufMin) h (by decide) (by decide),
    endsWith_excl (p := sufMax) h (by decide) (by decide)]

theorem numeric_filter_emax {name : List Char} (h : endsWithL name sufEmax = true) :
    numeric_filter name = ⟨replaceAll sufEmax name, .lt⟩ := by
  simp [numeric_filter, h, endsWith_excl (p := sufMin) h (by decide) (by decide),
    endsWith_excl (p := sufMax) h (by decide) (by decide),
    endsWith_excl (p := sufEmin) h (by decide) (by decide)]

theorem datetime_filter_after {name : List Char} (h : endsWithL name sufAfter = true) :
    datetime_filter name = ⟨replaceAll sufAfter name, .gt⟩ := by
  simp [datetime_filter, h]

theorem datetime_filter_before {name : List Char} (h : endsWithL name sufBefore = true) :
    datetime_filter name = ⟨replaceAll sufBefore name, .lt⟩ := by
  simp [datetime_filter, h, endsWith_excl (p := sufAfter) h (by decide) (by decide)]

theorem datetime_filter_iafter {name : List Char} (h : endsWithL name sufIafter = true) :
    datetime_filter name = ⟨replaceAll sufIafter name, .gte⟩ := by
  simp [datetime_filter, h, endsWith_excl (p := sufAfter) h (by decide) (by decide),
    endsWith_excl (p := sufBefore) h (by decide) (by decide)]

theorem datetime_filter_ibefore {name : List Char} (h : endsWithL name sufIbefore = true) :
    datetime_filter name = ⟨replaceAll sufIbefore name, .lte⟩ := by
  simp [datetime_filter, h, endsWith_excl (p := sufAfter) h (by decide) (by decide),
    endsWith_excl (p := sufBefore) h (by decide) (by decide),
    endsWith_excl (p := sufIafter) h (by decide) (by decide)]

/-- C3 (amended): for every filter field name ending in a recognized numeric
suffix (`_min`→≥, `_max`→≤, `_emin`→>, `_emax`→<) or date/datetime suffix
(`_after`→>, `_before`→<, `_iafter`→≥, `_ibefore`→≤), the compiled builder
uses exactly the operator mapped to that suffix and targets the field name
with every occurrence of the suffix removed (Python `str.replace`
semantics); whenever the suffix does not also occur earlier in the name,
that target is exactly the unsuffixed base name. A field name with no
recognized suffix compiles to an exact predicate on the field itself. -/
theorem suffix_filter_operator_mapping (name base : List Char) :
    (endsWithL name sufMin = true → numeric_filter name = ⟨replaceAll sufMin name, .gte⟩) ∧
    (endsWithL name sufMax = true → numeric_filter name = ⟨replaceAll sufMax name, .lte⟩) ∧
    (endsWithL name sufEmin = true → numeric_filter name = ⟨replaceAll sufEmin name, .gt⟩) ∧
    (endsWithL name sufEmax = true → numeric_filter name = ⟨replaceAll sufEmax name, .lt⟩) ∧
    (endsWithL name sufMin = false → endsWithL name sufMax = false →
      endsWithL name sufEmin = false → endsWithL name sufEmax = false →
      numeric_filter name = ⟨name, .exact⟩) ∧
    (occursIn sufMin base = false → numeric_filter (base ++ sufMin) = ⟨base, .gte⟩) ∧
    (occursIn sufMax base = false → numeric_filter (base ++ sufMax) = ⟨base, .lte⟩) ∧
    (occursIn sufEmin base = false → numeric_filter (base ++ sufEmin) = ⟨base, .gt⟩) ∧
    (occursIn sufEmax base = false → numeric_filter (base ++ sufEmax) = ⟨base, .lt⟩) ∧
    (endsWithL name sufAfter = true → datetime_filter name = ⟨replaceAll sufAfter name, .gt⟩) ∧
    (endsWithL name sufBefore = true → datetime_filter name = ⟨replaceAll sufBefore name, .lt⟩) ∧
    (endsWithL name sufIafter = true → datetime_filter name = ⟨replaceAll sufIafter name, .gte⟩) ∧
    (endsWithL name sufIbefore = true → datetime_filter name = ⟨replaceAll sufIbefore name, .lte⟩) ∧
    (endsWithL name sufAfter = false → endsWithL name sufBefore = false →
      endsWithL name sufIafter = false → endsWithL name sufIbefore = false →
      datetime_filter name = ⟨name, .exact⟩) ∧
    (occursIn sufAfter base = false → datetime_filter (base ++ sufAfter) = ⟨base, .gt⟩) ∧
    (occursIn sufBefore base = false → datetime_filter (base ++ sufBefore) = ⟨base, .lt⟩) ∧
    (occursIn sufIafter base = false → datetime_filter (base ++ sufIafter) = ⟨base, .gte⟩) ∧
    (occursIn sufIbefore base = false → datetime_filter (base ++ sufIbefore) = ⟨base, .lte⟩) := by
  refine ⟨numeric_filter_min, numeric_filter_max, numeric_filter_emin, numeric_filter_emax,
    ?_, ?_, ?_, ?_, ?_,
    datetime_filter_after, datetime_filter_before, datetime_filter_iafter, datetime_filter_ibefore,
    ?_, ?_, ?_, ?_, ?_⟩
  · intro h1 h2 h3 h4
    simp [numeric_filter, h1, h2, h3, h4]
  · intro hocc
    rw [numeric_filter_min (endsWithL_append base sufMin),
      replaceAll_append_of (by decide) (by decide) base hocc]
  · intro hocc
    rw [numeric_filter_max (endsWithL_append base sufMax),
      replaceAll_append_of (by decide) (by decide) base hocc]
  · intro hocc
    rw [numeric_filter_emin (endsWithL_append base sufEmin),
      replaceAll_append_of (by decide) (by decide) base hocc]
  · intro hocc
    rw [numeric_filter_emax (endsWithL_append base sufEmax),
      replaceAll_append_of (by decide) (by decide) base hocc]
  · intro h1 h2 h3 h4
    simp [datetime_filter, h1, h2, h3, h4]
  · intro hocc
    rw [datetime_filter_after (endsWithL_append base sufAfter),
      replaceAll_append_of (by decide) (by decide) base hocc]
  · intro hocc
    rw [datetime_filter_before (endsWithL_append base sufBefore),
      replaceAll_append_of (by decide) (by decide) base hocc]
  · intro hocc
    rw [datetime_filter_iafter (endsWithL_append base sufIafter),
      replaceAll_append_of (by decide) (by decide) base hocc]
  · intro hocc
    rw [datetime_filter_ibefore (endsWithL_append base sufIbefore),
      replaceAll_append_of (by decide) (by decide) base hocc]

/-- Witness for `suffix_filter_operator_mapping` at the spec's own example
fields `price_min` and `created_at_after`. -/
theorem suffix_filter_operator_mapping_witness :
    numeric_filter ("price".toList ++ sufMin) = ⟨"price".toList, .gte⟩ ∧
    datetime_filter ("created_at".toList ++ sufAfter) = ⟨"created_at".toList, .gt⟩ :=
  ⟨(suffix_filter_operator_mapping [] "price".toList).2.2.2.2.2.1 (by decide),
    (suffix_filter_operator_mapping [] "created_at".toList).2.2.2.2.2.2.2.2.2.2.2.2.2.2.1
      (by decide)⟩

/-- C3 counterexample: the field name `a_min_min` ends in the recognized
suffix `_min`, whose unsuffixed base name is `a_min`; but because the source
uses `field_name.replace(suffix, '')`, every occurrence of `_min` is
removed and the compiled filter targets `a`, not the base name `a_min`. -/
theorem suffix_filter_counterexample :
    "a_min_min".toList = "a_min".toList ++ sufMin ∧
    numeric_filter "a_min_min".toList = ⟨"a".toList, .gte⟩ ∧
    (numeric_filter "a_min_min".toList).field_name ≠ "a_min".toList :=
  ⟨by decide, by decide, by decide⟩

/-! ### Aggregate roots and pending domain events
(`src/blacar/startup/shared/models.py`, `AbstractRoot`) -/

/-- An aggregate root: a persisted entity identifier together with its
private append-only `_domain_events` sequence. The event payload type `E`
stands for `DomainEvent`. -/
structure Agg (E : Type) where
  id : Nat
  events : List E
deriving DecidableEq

/-- `AbstractRoot.pull_events`: returns a copy of the pending list and
clears the internal list; embedded as explicit state passing. -/
def pull_events {E : Type} (a : Agg E) : List E × Agg E :=
  (a.events, { a with events := [] })

/-- C2: `pull_events` returns the full pending sequence in append order and
empties the internal sequence, so an immediately following second pull
returns the empty sequence (no event is returned by two distinct pulls). -/
theorem pull_events_drains_once {E : Type} (a : Agg E) :
    (pull_events a).1 = a.events ∧ (pull_events a).2.events = [] ∧
      (pull_events (pull_events a).2).1 = [] :=
  ⟨rfl, rfl, rfl⟩

/-! ### Domain event brokers
(`src/backend/blacar/startup/shared/events.py`) -/

/-- A registered listener callable, identified by `id`; `fails` marks a
listener whose invocation raises. -/
structure Listener where
  id : Nat
  fails : Bool
deriving DecidableEq

/-- Observable broker actions: a listener invocation, the no-listener
warning, and the logger call from an exception handler. -/
inductive BrokerAct (E : Type) where
  | call (listenerId : Nat) (e : E)
  | warnNoListener (e : E)
  | logException (e : E)
deriving DecidableEq

/-- `django.dispatch.Signal.send`: calls each connected receiver in
connection order; a receiver's exception propagates immediately, so the
remaining receivers are not called. Returns the invocation trace and
whether an exception escaped. -/
def signal_send {E : Type} (e : E) : List Listener → List (BrokerAct E) × Bool
  | [] => ([], false)
  | r :: rs =>
    if r.fails then ([BrokerAct.call r.id e], true)
    else
      let t := signal_send e rs
      (BrokerAct.call r.id e :: t.1, t.2)

/-- `DjangoSignalDomainEventBroker.dispatch`: per event, look up the
signal; a missing signal warns and continues; `signal.send` runs inside
`try/except`, whose handler logs the exception and falls through to the
next event. -/
def django_dispatch {E : Type} (registry : E → Option (List Listener)) (events : List E) :
    List (BrokerAct E) :=
  events.flatMap fun e =>
    match registry e with
    | none => [BrokerAct.warnNoListener e]
    | some receivers =>
      let t := signal_send e receivers
      t.1 ++ (if t.2 then [BrokerAct.logException e] else [])

/-- `InMemoryDomainEventBroker.dispatch`: appends every event to
`_dispatched_events`; when `call_listeners` is set, each listener of the
event runs inside its own `try/except`, so a raising listener is logged
and the next listener still runs. Returns the recorded events and the
action trace. -/
def inmemory_dispatch {E : Type} (listeners : E → List Listener) (call_listeners : Bool)
    (events : List E) : List E × List (BrokerAct E) :=
  events.foldl
    (fun acc e =>
      (acc.1 ++ [e],
        acc.2 ++
          if call_listeners then
            (listeners e).flatMap fun l =>
              BrokerAct.call l.id e :: (if l.fails then [BrokerAct.logException e] else [])
          else []))
    ([], [])

theorem fold_record_dispatch {E β : Type} (f : E → List β) :
    ∀ (events : List E) (acc : List E × List β),
      events.foldl (fun acc e => (acc.1 ++ [e], acc.2 ++ f e)) acc =
        (acc.1 ++ events, acc.2 ++ events.flatMap f)
  | [], acc => by simp
  | e :: rest, acc => by
    rw [List.foldl_cons, fold_record_dispatch f rest]
    simp

theorem inmemory_dispatch_eq {E : Type} (listeners : E → List Listener) (cl : Bool)
    (events : List E) :
    inmemory_dispatch listeners cl events =
      (events,
        events.flatMap fun e =>
          if cl then
            (listeners e).flatMap fun l =>
              BrokerAct.call l.id e :: (if l.fails then [BrokerAct.logException e] else [])
          else []) := by
  show events.foldl _ ([], []) = _
  rw [fold_record_dispatch
    (fun e => if cl then (listeners e).flatMap
      (fun l => BrokerAct.call l.id e :: (if l.fails then [BrokerAct.logException e] else []))
      else []) events ([], [])]
  simp

/-- The visible effect of one event's delivery through `signal.send` plus
the surrounding `try/except`: the receivers before the first raising one
are invoked, the raising one is invoked and then logged, and the rest of
that event's receivers are skipped. -/
theorem signal_send_effect {E : Type} (e : E) :
    ∀ receivers : List Listener,
      (signal_send e receivers).1 ++
          (if (signal_send e receivers).2 then [BrokerAct.logException e] else []) =
        ((receivers.takeWhile fun r => !r.fails).map fun r => BrokerAct.call r.id e) ++
          (match receivers.dropWhile (fun r => !r.fails) with
           | [] => []
           | r :: _ => [BrokerAct.call r.id e, BrokerAct.logException e])
  | [] => rfl
  | r :: rs => by
    by_cases hf : r.fails
    · simp [signal_send, hf, List.takeWhile, List.dropWhile]
    · have h1 : r.fails = false := by simpa using hf
      have hs : signal_send e (r :: rs) =
          (BrokerAct.call r.id e :: (signal_send e rs).1, (signal_send e rs).2) := by
        simp [signal_send, h1]
      have ht : (r :: rs).takeWhile (fun r => !r.fails) =
          r :: rs.takeWhile (fun r => !r.fails) := by
        simp [List.takeWhile_cons, h1]
      have hd : (r :: rs).dropWhile (fun r => !r.fails) =
          rs.dropWhile (fun r => !r.fails) := by
        simp [List.dropWhile_cons, h1]
      rw [hs, ht, hd]
      dsimp only [List.map_cons, List.cons_append]
      rw [← signal_send_effect e rs]

/-- C6 (amended): a raising listener is logged, and no listener failure
ever aborts delivery of the remaining events — dispatching a concatenation
of event sequences equals the concatenation of their dispatches; an event
with no registered listener only produces a warning; the in-memory broker
(with `call_listeners`) still invokes every listener of the same event
after a failure, while the Django-signal broker invokes exactly the
listeners up to and including the first raising one and skips the rest of
that event's listeners. -/
theorem dispatch_failure_isolation {E : Type} (registry : E → Option (List Listener))
    (listeners : E → List Listener) (es1 es2 events : List E) :
    django_dispatch registry (es1 ++ es2) =
      django_dispatch registry es1 ++ django_dispatch registry es2 ∧
    (inmemory_dispatch listeners true events).1 = events ∧
    (∀ e ∈ events, ∀ l ∈ listeners e,
      BrokerAct.call l.id e ∈ (inmemory_dispatch listeners true events).2) ∧
    (∀ e, registry e = none → django_dispatch registry [e] = [BrokerAct.warnNoListener e]) ∧
    (∀ e receivers, registry e = some receivers →
      django_dispatch registry [e] =
        ((receivers.takeWhile fun r => !r.fails).map fun r => BrokerAct.call r.id e) ++
          (match receivers.dropWhile (fun r => !r.fails) with
           | [] => []
           | r :: _ => [BrokerAct.call r.id e, BrokerAct.logException e])) := by
  refine ⟨?_, ?_, ?_, ?_, ?_⟩
  · simp [django_dispatch]
  · rw [inmemory_dispatch_eq]
  · intro e he l hl
    rw [inmemory_dispatch_eq]
    simp only [if_true]
    refine List.mem_flatMap.mpr ⟨e, he, ?_⟩
    exact List.mem_flatMap.mpr ⟨l, hl, List.mem_cons_self _ _⟩
  · intro e hnone
    simp [django_dispatch, hnone]
  · intro e receivers hsome
    simp only [django_dispatch, List.flatMap_cons, List.flatMap_nil, List.append_nil, hsome]
    exact signal_send_effect e receivers

/-- Witness for `dispatch_failure_isolation`: a raised listener does not
stop the in-memory broker from invoking the next listener, and an
unregistered event only warns. -/
theorem dispatch_failure_isolation_witness :
    BrokerAct.call 2 (0 : Nat) ∈
      (inmemory_dispatch (fun _ => [⟨1, true⟩, ⟨2, false⟩]) true [0]).2 ∧
    django_dispatch (fun _ : Nat => none) [0] = [BrokerAct.warnNoListener 0] :=
  ⟨(dispatch_failure_isolation (fun _ : Nat => none) (fun _ => [⟨1, true⟩, ⟨2, false⟩])
      [] [] [0]).2.2.1 0 (by decide) ⟨2, false⟩ (by decide),
    (dispatch_failure_isolation (fun _ : Nat => none) (fun _ => []) [] [] []).2.2.2.1 0 rfl⟩

/-- C6 counterexample: under the Django-signal broker, with two listeners
registered for the event's type and the first raising, the second listener
is never invoked for that event — the broker does not continue with the
next listener registered for the same event, it only continues with the
next event. -/
theorem dispatch_counterexample :
    django_dispatch (fun _ : Nat => some [⟨1, true⟩, ⟨2, false⟩]) [0] =
      [BrokerAct.call 1 0, BrokerAct.logException 0] ∧
    BrokerAct.call 2 0 ∉ django_dispatch (fun _ : Nat => some [⟨1, true⟩, ⟨2, false⟩]) [0] :=
  ⟨by decide, by decide⟩

/-! ### Commit-gated event dispatch
(`DjangoRepository.store` under `transactions.atomic`;
`src/blacar/startup/shared/repository.py` and
`src/backend/blacar/startup/shared/transactions.py`) -/

/-- The state of one open transaction: the `transaction.on_commit` hook
queue. Each hook registered by `store` is the dispatch of one aggregate's
pulled events. -/
structure TxState (E : Type) where
  hooks : List (List E)

/-- The body of `DjangoRepository.store` running inside an enclosing
transaction: persist the instance, pull the aggregate's pending events,
and register their dispatch with `transaction.on_commit(..., robust=True)`.
Returns the drained aggregate and the new transaction state. -/
def store_in_tx {E : Type} (st : TxState E) (a : Agg E) : Agg E × TxState E :=
  let pulled := pull_events a
  (pulled.2, ⟨st.hooks ++ [pulled.1]⟩)

/-- Trace actions of a transaction run: the durable commit, a rollback, or
the delivery of one event to one listener. -/
inductive TxAct (E : Type) where
  | commit
  | rollback
  | deliver (listenerId : Nat) (e : E)
deriving DecidableEq

/-- One dispatch pass: each event, in order, delivered to the listeners
registered for its type, in registration order. -/
def dispatch_deliveries {E : Type} (listeners : E → List Nat) (events : List E) :
    List (TxAct E) :=
  events.flatMap fun e => (listeners e).map fun l => TxAct.deliver l e

/-- One enclosing `transaction.atomic` block that stores each aggregate in
turn and then either commits or rolls back. Per Django's documented
semantics, `on_commit` hooks run in registration order strictly after the
durable commit and are discarded on rollback. -/
def run_transaction {E : Type} (listeners : E → List Nat) (aggs : List (Agg E))
    (commits : Bool) : List (TxAct E) :=
  let final := aggs.foldl (fun st a => (store_in_tx st a).2) ⟨[]⟩
  if commits then TxAct.commit :: final.hooks.flatMap (dispatch_deliveries listeners)
  else [TxAct.rollback]

theorem store_in_tx_hooks {E : Type} :
    ∀ (aggs : List (Agg E)) (h : List (List E)),
      (aggs.foldl (fun st a => (store_in_tx st a).2) ⟨h⟩).hooks =
        h ++ aggs.map (fun a => a.events)
  | [], h => by simp
  | a :: rest, h => by
    rw [List.foldl_cons, store_in_tx_hooks rest]
    simp [store_in_tx, pull_events]

/-- C1: if the enclosing transaction rolls back, no listener is invoked
for any stored aggregate's events; if it commits, exactly one dispatch
pass occurs, delivering each stored aggregate's events in the order they
were appended, entirely after the commit. -/
theorem store_commit_gated_dispatch {E : Type} (listeners : E → List Nat)
    (aggs : List (Agg E)) :
    (∀ l e, TxAct.deliver l e ∉ run_transaction listeners aggs false) ∧
    run_transaction listeners aggs true =
      TxAct.commit :: aggs.flatMap fun a => dispatch_deliveries listeners a.events := by
  constructor
  · intro l e hmem
    simp [run_transaction] at hmem
  · show TxAct.commit :: _ = _
    rw [store_in_tx_hooks aggs []]
    simp [List.flatMap_map]

/-- Witness for `store_commit_gated_dispatch`: one aggregate with one
pending event, one listener; rollback delivers nothing, commit delivers
exactly once, after the commit. -/
theorem store_commit_gated_dispatch_witness :
    TxAct.deliver 7 (5 : Nat) ∉ run_transaction (fun _ => [7]) [⟨0, [5]⟩] false ∧
    run_transaction (fun _ => [7]) [⟨0, [5]⟩] true = [TxAct.commit, TxAct.deliver 7 5] :=
  ⟨(store_commit_gated_dispatch (fun _ => [7]) [⟨0, [5]⟩]).1 7 5, by
    rw [(store_commit_gated_dispatch (fun _ => [7]) [⟨0, [5]⟩]).2]
    rfl⟩

/-! ### In-memory ordering (`InMemoryRepository.order_by`,
`src/blacar/startup/shared/repository.py` lines 196-204) -/

/-- A record as the in-memory repository sees it: an assignment of ordered
values to field names (`Entity.get_field_value`); values are embedded as
integers, standing in for any totally ordered scalar. -/
abbrev Rec := List (List Char × Int)

/-- `Entity.get_field_value` on the embedded record. -/
def get_field_value (r : Rec) (f : List Char) : Int :=
  match r.find? (fun p => p.1 == f) with
  | some p => p.2
  | none => 0

/-- `ordering_field.lstrip("-+")`. -/
def strip_order_marks (f : List Char) : List Char :=
  f.dropWhile (fun c => c == '-' || c == '+')

/-- One `sorted(result, key=..., reverse=...)` pass's comparison: the key
is the stripped field's value, and `reverse` is `startswith("-")`. -/
def pass_le (f : List Char) (a b : Rec) : Bool :=
  if f.head? == some '-' then
    decide (get_field_value b (strip_order_marks f) ≤ get_field_value a (strip_order_marks f))
  else
    decide (get_field_value a (strip_order_marks f) ≤ get_field_value b (strip_order_marks f))

/-- `InMemoryRepository.order_by`: one stable sort per ordering field,
iterating the fields in reverse. Python's `sorted` is a stable sort;
it is embedded as the extensionally equal stable insertion sort. -/
def order_by (fields : List (List Char)) (l : List Rec) : List Rec :=
  fields.foldr (fun f acc => List.insertionSort (fun a b => pass_le f a b = true) acc) l

/-- Lexicographic comparison along the ordering fields: earlier fields take
precedence, later fields order ties, and a leading `-` reverses one field's
comparison (through `pass_le`). -/
def lex_le : List (List Char) → Rec → Rec → Prop
  | [] => fun _ _ => True
  | f :: rest => fun a b => pass_le f a b = true ∧ (pass_le f b a = true → lex_le rest a b)

/-- The tuple of ordering-key values of one record. -/
def ordering_keys (fields : List (List Char)) (r : Rec) : List Int :=
  fields.map fun f => get_field_value r (strip_order_marks f)

theorem pass_le_total (f : List Char) (a b : Rec) :
    pass_le f a b = true ∨ pass_le f b a = true := by
  cases hh : f.head? == some '-' <;> simp [pass_le, hh] <;> omega

theorem pass_le_trans (f : List Char) (a b c : Rec) (h1 : pass_le f a b = true)
    (h2 : pass_le f b c = true) : pass_le f a c = true := by
  cases hh : f.head? == some '-' <;> simp [pass_le, hh] at h1 h2 ⊢ <;> omega

theorem pass_le_of_key_eq {f : List Char} {a b : Rec}
    (hkey : get_field_value a (strip_order_marks f) = get_field_value b (strip_order_marks f)) :
    pass_le f a b = true := by
  cases hh : f.head? == some '-' <;> simp [pass_le, hh, hkey]

theorem orderedInsert_pairwise_stable {α : Type} {le : α → α → Prop} [DecidableRel le]
    {Q : α → α → Prop} (total : ∀ a b, le a b ∨ le b a)
    (htrans : ∀ a b c, le a b → le b c → le a c) :
    ∀ (s : List α) (a : α),
      s.Pairwise (fun x y => le x y ∧ (le y x → Q x y)) →
      (∀ x ∈ s, Q a x) →
      (s.orderedInsert le a).Pairwise (fun x y => le x y ∧ (le y x → Q x y))
  | [], a, _, _ => List.pairwise_singleton _ a
  | b :: u, a, hp, hQ => by
    rcases List.pairwise_cons.mp hp with ⟨hball, hu⟩
    rw [List.orderedInsert]
    split
    · next hab =>
      refine List.pairwise_cons.mpr ⟨?_, hp⟩
      intro y hy
      rcases List.mem_cons.mp hy with rfl | hyu
      · exact ⟨hab, fun _ => hQ y (List.mem_cons_self _ _)⟩
      · exact ⟨htrans a b y hab (hball y hyu).1, fun _ => hQ y (List.mem_cons.mpr (Or.inr hyu))⟩
    · next hab =>
      refine List.pairwise_cons.mpr ⟨?_, ?_⟩
      · intro y hy
        rcases (List.mem_orderedInsert le).mp hy with rfl | hyu
        · exact ⟨(total y b).resolve_left hab, fun hyb => absurd hyb hab⟩
        · exact hball y hyu
      · exact orderedInsert_pairwise_stable total htrans u a hu
          (fun x hx => hQ x (List.mem_cons.mpr (Or.inr hx)))

theorem insertionSort_pairwise_stable {α : Type} {le : α → α → Prop} [DecidableRel le]
    {Q : α → α → Prop} (total : ∀ a b, le a b ∨ le b a)
    (htrans : ∀ a b c, le a b → le b c → le a c) :
    ∀ l : List α, l.Pairwise Q →
      (l.insertionSort le).Pairwise (fun x y => le x y ∧ (le y x → Q x y))
  | [], _ => List.Pairwise.nil
  | a :: t, hp => by
    rcases List.pairwise_cons.mp hp with ⟨ha, ht⟩
    rw [List.insertionSort]
    apply orderedInsert_pairwise_stable total htrans
    · exact insertionSort_pairwise_stable total htrans t ht
    · intro x hx
      exact ha x ((List.perm_insertionSort le t).mem_iff.mp hx)

theorem pairwise_filter_all {α : Type} {le : α → α → Prop} {p : α → Bool}
    (hp : ∀ x y, p x = true → p y = true → le x y) :
    ∀ l : List α, (l.filter p).Pairwise le
  | [] => List.Pairwise.nil
  | a :: t => by
    by_cases hpa : p a = true
    · rw [List.filter_cons_of_pos hpa]
      refine List.pairwise_cons.mpr ⟨?_, pairwise_filter_all hp t⟩
      intro y hy
      exact hp a y hpa (List.of_mem_filter hy)
    · rw [List.filter_cons_of_neg (by simpa using hpa)]
      exact pairwise_filter_all hp t

/-- A stable sort does not reorder the records of one tie class. -/
theorem insertionSort_filter_tied {α : Type} {le : α → α → Prop} [DecidableRel le]
    {p : α → Bool} (hp : ∀ x y, p x = true → p y = true → le x y) (l : List α) :
    (l.insertionSort le).filter p = l.filter p := by
  have hsub : List.Sublist (l.filter p) (l.insertionSort le) :=
    List.sublist_insertionSort (pairwise_filter_all hp l) (List.filter_sublist l)
  have hsubf : List.Sublist ((l.filter p).filter p) ((l.insertionSort le).filter p) :=
    hsub.filter p
  have hself : (l.filter p).filter p = l.filter p :=
    List.filter_eq_self.mpr fun a ha => List.of_mem_filter ha
  rw [hself] at hsubf
  have hlen : ((l.insertionSort le).filter p).length ≤ (l.filter p).length := by
    rw [← List.countP_eq_length_filter, ← List.countP_eq_length_filter,
      (List.perm_insertionSort le l).countP_eq]
  exact (hsubf.eq_of_length_le hlen).symm

theorem order_by_filter_stable {p : Rec → Bool} :
    ∀ fields : List (List Char),
      (∀ x y, p x = true → p y = true → ordering_keys fields x = ordering_keys fields y) →
      ∀ l : List Rec, (order_by fields l).filter p = l.filter p
  | [], _, l => rfl
  | f :: rest, hkeys, l => by
    show (List.insertionSort _ (order_by rest l)).filter p = _
    rw [insertionSort_filter_tied (fun x y hx hy => ?_) (order_by rest l),
      order_by_filter_stable rest (fun x y hx hy => ?_) l]
    · have := hkeys x y hx hy
      simp only [ordering_keys, List.map_cons, List.cons.injEq] at this
      exact this.2
    · have := hkeys x y hx hy
      simp only [ordering_keys, List.map_cons, List.cons.injEq] at this
      exact pass_le_of_key_eq this.1

theorem pairwise_trivial {α : Type} : ∀ l : List α, l.Pairwise (fun _ _ => True)
  | [] => List.Pairwise.nil
  | _ :: t => List.Pairwise.cons (fun _ _ => trivial) (pairwise_trivial t)

theorem order_by_pairwise_lex : ∀ (fields : List (List Char)) (l : List Rec),
    (order_by fields l).Pairwise (lex_le fields)
  | [], l => pairwise_trivial l
  | f :: rest, l =>
    insertionSort_pairwise_stable (pass_le_total f) (pass_le_trans f)
      (order_by rest l) (order_by_pairwise_lex rest l)

theorem order_by_perm : ∀ (fields : List (List Char)) (l : List Rec),
    (order_by fields l).Perm l
  | [], _ => List.Perm.refl _
  | f :: rest, l =>
    (List.perm_insertionSort _ (order_by rest l)).trans (order_by_perm rest l)

/-- C7: `InMemoryRepository.order_by` is a stable sort. Records with equal
values on every ordering key keep their original relative order; because
the ordering fields are applied in reverse, earlier fields take precedence
over later ones — the result is pairwise sorted by the lexicographic field
comparison `lex_le`, in which a leading `-` reverses one field's
comparison; and the result is a permutation of the input. -/
theorem order_by_stable_sort (fields : List (List Char)) (l : List Rec) :
    (∀ v : List Int,
      (order_by fields l).filter (fun r => ordering_keys fields r == v) =
        l.filter (fun r => ordering_keys fields r == v)) ∧
    (order_by fields l).Pairwise (lex_le fields) ∧ (order_by fields l).Perm l := by
  refine ⟨?_, order_by_pairwise_lex fields l, order_by_perm fields l⟩
  intro v
  refine order_by_filter_stable fields (fun x y hx hy => ?_) l
  have hx' : ordering_keys fields x = v := by simpa using hx
  have hy' : ordering_keys fields y = v := by simpa using hy
  rw [hx', hy']

/-! ### Repositories: criteria binding, `get`, `find`
(`src/blacar/startup/shared/repository.py` and
`src/blacar/startup/shared/filters.py`) -/

/-- Python-level failures that can escape the query paths. -/
inductive PyErr where
  | attributeError
  | typeError
deriving DecidableEq

/-- `NotFoundError`: its `code` is always `not_found`; `details` carries
`criteria.to_dict()` when the repository supplies it. -/
structure NotFoundE where
  details : Option (List (List Char × List Char)) := none
deriving DecidableEq

/-- The `returns` library's `Result` as the repositories use it. -/
inductive RepoResult (α : Type) where
  | success (a : α)
  | failure (e : NotFoundE)
deriving DecidableEq

/-- The reconstructed criteria instance (`Filters.values` when not `None`):
only its `order` dataclass field is consulted by the repositories. -/
structure CritVals where
  order : Option (List (List Char))
deriving DecidableEq

/-- A bound `Filters[TCriteria]` instance as the repositories consume it:
`data` is the raw bound request mapping, `cleaned` the non-null cleaned
values (`to_dict()`), `orderVal` the cleaned `order` value when bound,
`hasNestedCriteria` whether the criteria dataclass declares a nested
criteria field (nested fields always contribute a kwarg in
`_create_criteria`), and `matchesP` the record predicate (`_matches`) denoted by
`expressions_values` / `filter_queryset`. -/
structure BoundCriteria where
  data : List (List Char × List Char)
  cleaned : List (List Char × List Char)
  orderVal : Option (List (List Char))
  hasNestedCriteria : Bool
  matchesP : Rec → Bool

/-- `Filters.values`: `_create_criteria` returns `None` exactly when no
kwarg was assigned — when the cleaned dict is empty and no nested criteria
field exists (a nested field is always assigned, possibly `None`). -/
def criteria_values (c : BoundCriteria) : Option CritVals :=
  if c.cleaned.isEmpty && !c.hasNestedCriteria then none
  else some ⟨c.orderVal⟩

/-- `Filters.expressions_values`: reads `self.values.to_dict()`, so a
`None` values raises `AttributeError`; otherwise it denotes the bound
record predicate. -/
def expressions_values (c : BoundCriteria) : Except PyErr (Rec → Bool) :=
  match criteria_values c with
  | none => .error .attributeError
  | some _ => .ok c.matchesP

/-- A DRF pagination object: `isCursor` distinguishes `CursorPagination`
from `PageNumberPagination`; `ordering` is the cursor's ordering
attribute; `paginate` is `paginate_queryset` under an effective ordering
(out-of-scope DRF machinery, kept opaque). -/
structure Pagination where
  isCursor : Bool
  ordering : Option (List (List Char))
  paginate : Option (List (List Char)) → List Rec → List Rec

/-- `criteria.values.order or pagination.ordering`: Python `or` treats both
`None` and an empty tuple as falsy. -/
def effective_ordering (v : CritVals) (p : Pagination) : Option (List (List Char)) :=
  match v.order with
  | some o => if o.isEmpty then p.ordering else some o
  | none => p.ordering

/-- `DjangoRepository.get` (the store list is the model's table in
queryset order): empty `data` fails fast with a bare `NotFoundError`;
otherwise the compiled predicate filters the queryset and `.first()` is
taken; no match fails with `NotFoundError(details=criteria.to_dict())`. -/
def django_get (store : List Rec) (c : BoundCriteria) : RepoResult Rec :=
  if c.data.isEmpty then .failure {}
  else
    match (store.filter c.matchesP).head? with
    | none => .failure { details := some c.cleaned }
    | some r => .success r

/-- `InMemoryRepository.get`: empty `data` fails fast; otherwise
`self.filter(**criteria.expressions_values)` (which dereferences
`criteria.values`) keeps the matching instances in insertion order and the
first is returned; an empty result is a bare `NotFoundError`. -/
def inmemory_get (store : List Rec) (c : BoundCriteria) : Except PyErr (RepoResult Rec) :=
  if c.data.isEmpty then .ok (.failure {})
  else
    match expressions_values c with
    | .error e => .error e
    | .ok pred =>
      match (store.filter pred).head? with
      | none => .ok (.failure {})
      | some r => .ok (.success r)

/-- `DjangoRepository.find`: with a cursor pagination the ordering is set
to `criteria.values.order or pagination.ordering` (dereferencing
`criteria.values`); the queryset is filtered only when `data` is nonempty,
then paginated; the result is always a `Success`. -/
def django_find (store : List Rec) (c : BoundCriteria) (p : Pagination) :
    Except PyErr (RepoResult (List Rec)) :=
  if p.isCursor then
    match criteria_values c with
    | none => .error .attributeError
    | some v =>
      let qs := if c.data.isEmpty then store else store.filter c.matchesP
      .ok (.success (p.paginate (effective_ordering v p) qs))
  else
    let qs := if c.data.isEmpty then store else store.filter c.matchesP
    .ok (.success (p.paginate p.ordering qs))

/-- `InMemoryRepository.find`: filters through `expressions_values`
(dereferencing `criteria.values`); with a cursor pagination the effective
ordering is handed to the paginator, otherwise
`order_by(*criteria.values.order)` runs — unpacking a `None` order raises
`TypeError`; the survivors are paginated. -/
def inmemory_find (store : List Rec) (c : BoundCriteria) (p : Pagination) :
    Except PyErr (RepoResult (List Rec)) :=
  match expressions_values c with
  | .error e => .error e
  | .ok pred =>
    let filtered := store.filter pred
    match criteria_values c with
    | none => .error .attributeError
    | some v =>
      if p.isCursor then .ok (.success (p.paginate (effective_ordering v p) filtered))
      else
        match v.order with
        | none => .error .typeError
        | some flds => .ok (.success (p.paginate none (order_by flds filtered)))

/-- C4: for both repository implementations, `get` with an empty criteria
(no fields bound) fails with `NotFoundError` — never a success and never
an escaping exception — regardless of store contents. -/
theorem get_empty_criteria_not_found (store : List Rec) (c : BoundCriteria)
    (h : c.data = []) :
    django_get store c = .failure {} ∧ inmemory_get store c = .ok (.failure {}) := by
  constructor <;> simp [django_get, inmemory_get, h]

/-- Witness for `get_empty_criteria_not_found` on a one-record store. -/
theorem get_empty_criteria_not_found_witness :
    django_get [[("id".toList, (1 : Int))]] ⟨[], [], none, false, fun _ => true⟩ =
      .failure {} ∧
    inmemory_get [[("id".toList, (1 : Int))]] ⟨[], [], none, false, fun _ => true⟩ =
      .ok (.failure {}) :=
  get_empty_criteria_not_found _ _ rfl

/-- C10: for a non-empty criteria (with a reconstructible values object)
matching two or more stored records, both `get` implementations return
`Success` with the first matching record in the collection's order
(queryset order for the Django repository, insertion order in-memory);
a multi-match is never reported as an error. -/
theorem get_multi_match_returns_first (store : List Rec) (c : BoundCriteria) (r : Rec)
    (rest : List Rec) (hd : c.data ≠ []) (hv : criteria_values c ≠ none)
    (hf : store.filter c.matchesP = r :: rest) (h2 : rest ≠ []) :
    django_get store c = .success r ∧ inmemory_get store c = .ok (.success r) := by
  have hde : c.data.isEmpty = false := by
    cases hx : c.data with
    | nil => exact absurd hx hd
    | cons a t => rfl
  constructor
  · simp [django_get, hde, hf]
  · cases hcv : criteria_values c with
    | none => exact absurd hcv hv
    | some v => simp [inmemory_get, expressions_values, hcv, hde, hf]

/-- Witness for `get_multi_match_returns_first`: a two-record store and an
all-matching bound criteria. -/
theorem get_multi_match_returns_first_witness :
    django_get [[("id".toList, (1 : Int))], [("id".toList, (2 : Int))]]
        ⟨[("f".toList, "v".toList)], [("f".toList, "v".toList)], none, false, fun _ => true⟩ =
      .success [("id".toList, (1 : Int))] ∧
    inmemory_get [[("id".toList, (1 : Int))], [("id".toList, (2 : Int))]]
        ⟨[("f".toList, "v".toList)], [("f".toList, "v".toList)], none, false, fun _ => true⟩ =
      .ok (.success [("id".toList, (1 : Int))]) :=
  get_multi_match_returns_first _ _ _ _ (by decide) (by decide) rfl (by decide)

/-- C5 evidence: with an empty criteria (no fields bound, as with the
repository's own `UserAccountCriteria`), `Filters.values` is `None`;
`InMemoryRepository.find` then raises `AttributeError` under either
pagination kind, and `DjangoRepository.find` raises under cursor
pagination; only the Django repository under page-number pagination
returns `Success` with all records. -/
theorem find_empty_criteria_crashes :
    inmemory_find [[("id".toList, (1 : Int))], [("id".toList, (2 : Int))]]
        ⟨[], [], none, false, fun _ => true⟩ ⟨false, none, fun _ l => l⟩ =
      .error .attributeError ∧
    inmemory_find [[("id".toList, (1 : Int))], [("id".toList, (2 : Int))]]
        ⟨[], [], none, false, fun _ => true⟩ ⟨true, none, fun _ l => l⟩ =
      .error .attributeError ∧
    django_find [[("id".toList, (1 : Int))], [("id".toList, (2 : Int))]]
        ⟨[], [], none, false, fun _ => true⟩ ⟨true, none, fun _ l => l⟩ =
      .error .attributeError ∧
    django_find [[("id".toList, (1 : Int))], [("id".toList, (2 : Int))]]
        ⟨[], [], none, false, fun _ => true⟩ ⟨false, none, fun _ l => l⟩ =
      .ok (.success [[("id".toList, (1 : Int))], [("id".toList, (2 : Int))]]) :=
  ⟨rfl, rfl, rfl, rfl⟩

/-! ### `store` semantics for both repositories
(`src/blacar/startup/shared/repository.py` lines 135-141 and 238-242) -/

/-- Django `Model.save()` on the model's table: UPDATE the row carrying
this primary key when one exists, else INSERT. -/
def django_save {E : Type} (table : List (Agg E)) (a : Agg E) : List (Agg E) :=
  if table.any (fun x => x.id == a.id) then
    table.map (fun x => if x.id == a.id then a else x)
  else table ++ [a]

/-- `InMemoryRepository.store` on the instances list:
`self._instances.append(instance)` — an unconditional append. -/
def inmemory_store {E : Type} (instances : List (Agg E)) (a : Agg E) : List (Agg E) :=
  instances ++ [a]

theorem countP_map_replace {E : Type} (a : Agg E) :
    ∀ table : List (Agg E),
      (table.map fun x => if x.id == a.id then a else x).countP (fun x => x.id == a.id) =
        table.countP (fun x => x.id == a.id)
  | [] => rfl
  | x :: t => by
    by_cases hx : (x.id == a.id) = true
    · simp only [List.map_cons, hx, if_true, List.countP_cons, countP_map_replace a t]
      simp [hx]
    · simp only [List.map_cons, hx, if_false, List.countP_cons, countP_map_replace a t]
      simp [hx]

/-- C8 (amended): the Django repository's `store` (through `save()`) has
create-or-update semantics — when at most one stored record carries the
aggregate's identifier beforehand, exactly one does afterwards, never two;
the in-memory repository's `store` instead unconditionally appends the
aggregate. -/
theorem store_upsert_semantics {E : Type} (table : List (Agg E)) (a : Agg E)
    (h : table.countP (fun x => x.id == a.id) ≤ 1) :
    (django_save table a).countP (fun x => x.id == a.id) = 1 ∧
    inmemory_store table a = table ++ [a] := by
  refine ⟨?_, rfl⟩
  unfold django_save
  by_cases hany : table.any (fun x => x.id == a.id) = true
  · rw [if_pos hany, countP_map_replace]
    have hpos : 0 < table.countP (fun x => x.id == a.id) := by
      obtain ⟨x, hx, hpx⟩ := List.any_eq_true.mp hany
      exact List.countP_pos_iff.mpr ⟨x, hx, hpx⟩
    omega
  · rw [if_neg hany, List.countP_append]
    have h0 : table.countP (fun x => x.id == a.id) = 0 := by
      by_contra hne
      obtain ⟨x, hx, hpx⟩ := List.countP_pos_iff.mp (Nat.pos_of_ne_zero hne)
      exact hany (List.any_eq_true.mpr ⟨x, hx, hpx⟩)
    simp [h0, List.countP_cons]

/-- Witness for `store_upsert_semantics`: updating an existing id leaves
one matching record. -/
theorem store_upsert_semantics_witness :
    (django_save [⟨0, [5]⟩] (⟨0, []⟩ : Agg Nat)).countP
        (fun x => x.id == (⟨0, []⟩ : Agg Nat).id) = 1 ∧
    inmemory_store [⟨0, [5]⟩] (⟨0, []⟩ : Agg Nat) = [⟨0, [5]⟩] ++ [⟨0, []⟩] :=
  store_upsert_semantics [⟨0, [5]⟩] ⟨0, []⟩ (by decide)

/-- C8 counterexample: storing an aggregate whose identifier already
exists in the in-memory repository appends a second record with the same
id — `store` is not create-or-update there. -/
theorem inmemory_store_duplicate_id :
    (inmemory_store (inmemory_store [] (⟨0, []⟩ : Agg Nat)) ⟨0, []⟩).countP
        (fun x => x.id == 0) = 2 := by
  decide

/-! ### Account creation and the duplicate-email path
(`src/blacar/startup/accounts/managers.py` and
`src/blacar/startup/accounts/models.py`) -/

instance {e a : Type} [DecidableEq e] [DecidableEq a] : DecidableEq (Except e a) := fun x y =>
  match x, y with
  | .ok u, .ok v =>
    if h : u = v then .isTrue (congrArg Except.ok h)
    else .isFalse fun hc => h (Except.ok.inj hc)
  | .error u, .error v =>
    if h : u = v then .isTrue (congrArg Except.error h)
    else .isFalse fun hc => h (Except.error.inj hc)
  | .ok _, .error _ => .isFalse fun hc => Except.noConfusion hc
  | .error _, .ok _ => .isFalse fun hc => Except.noConfusion hc

/-- Python exceptions crossing the account-creation flow. -/
inductive AccountExc where
  | validationError (code : List Char)
  | integrityError (msg : List Char)
deriving DecidableEq

/-- A stored user row: only the unique `email` column matters here. -/
structure UserRow where
  email : List Char
deriving DecidableEq

/-- `email.strip().lower()` (whitespace embedded as the space character). -/
def normalize_email (email : List Char) : List Char :=
  ((((email.dropWhile (fun c => c == ' ')).reverse.dropWhile
    (fun c => c == ' ')).reverse).map Char.toLower)

/-- `User.create`: builds the unsaved user from the normalized email;
`_create_user_object` raises `ValueError` for a falsy email, which is
translated into `Failure(ValidationError(msg))` (default code
`validation_error`). -/
def user_create (email : List Char) : Except AccountExc UserRow :=
  let norm := normalize_email email
  if norm.isEmpty then .error (.validationError "validation_error".toList)
  else .ok ⟨norm⟩

/-- The uniqueness-violation signal the store raises on a duplicate email
(`django.db.IntegrityError`), already casefolded as the manager does; per
the spec, the store's signal is distinguishable by the offending field
name. -/
def integrity_message : List Char :=
  "unique constraint failed: accounts_user.email".toList

/-- `UserManager.create_user`: a `User.create` failure is raised as-is (it
is not an `IntegrityError`, so the handler re-raises it); `user.save()`
hitting the unique email constraint raises `IntegrityError`, which the
manager translates into a raised `ValidationError('Email already exists',
code='email_taken')` when the casefolded message mentions `unique` and
`email`, and re-raises untranslated otherwise. -/
def create_user (store : List UserRow) (email : List Char) : Except AccountExc UserRow :=
  match user_create email with
  | .error e => .error e
  | .ok u =>
    if store.any (fun row => row.email == u.email) then
      if occursIn "unique".toList integrity_message &&
          occursIn "email".toList integrity_message then
        .error (.validationError "email_taken".toList)
      else .error (.integrityError integrity_message)
    else .ok u

/-- C9 evidence at the failing input: creating `a@x.com` succeeds; creating
it again — even spelled `"  A@X.Com "` before trimming and lowercasing —
fails by raising `ValidationError` with code `email_taken`, translated ad
hoc from the store's `IntegrityError` message. No `ConflictError` type
exists anywhere in the code, and the failure is a raised exception rather
than a returned typed failure. -/
theorem duplicate_email_raises_validation_error :
    create_user [] "a@x.com".toList = .ok ⟨"a@x.com".toList⟩ ∧
    create_user [⟨"a@x.com".toList⟩] "a@x.com".toList =
      .error (.validationError "email_taken".toList) ∧
    create_user [⟨"a@x.com".toList⟩] "  A@X.Com ".toList =
      .error (.validationError "email_taken".toList) :=
  ⟨by decide, by decide, by decide⟩


end PpcarBe
